import Mathlib

/-
Shallow embedding of the functime preprocessing transforms and of the CUSUM
changepoint detector.  The implementation sources of this repository are not
available (only documentation notebooks and a CI workflow that call them), so
every operation below is modelled from the specification text; each doc
comment records the sentence it follows.  Real numbers stand in for the
floating point values of the implementation, hence equalities hold exactly
where the specification asks for equality up to rounding.  Entity sequences
are modelled positionally: regular timestamps become the indices 0, 1, 2, ...
-/

open Classical

noncomputable section

namespace Functime

/-- Modelled from the spec: a PanelSeries is an ordered mapping from entity
identifier to an ordered sequence of values (timestamps are the positions). -/
abbrev Panel : Type := List (String × List ℝ)

/-- Modelled from the spec: the error kinds of section 7. -/
inductive TErr where
  | preconditionViolation
  | nonPositiveValue
  | invertDomain
  | degenerateVariance
  | missingState
  | pipelineNotFitted
  | insufficientData

/-- Modelled from the spec: per entity record of scalar or vector parameters
captured at fit time (seed values, raw history, trend coefficients, Fourier
coefficients plus the seasonal artifact, mean and std, the power lambda). -/
inductive EntityState where
  | diffS (seed : List ℝ)
  | fracS (history : List ℝ)
  | trendS (intercept slope : ℝ)
  | fourierS (coeffs seasonal : List ℝ)
  | scaleS (m s : ℝ)
  | lamS (lam : ℝ)

/-- Modelled from the spec: TransformState is a mapping from entity
identifier to its captured parameters. -/
abbrev StateMap : Type := List (String × EntityState)

/-- Modelled from the spec: the detrend method is linear or mean. -/
inductive DetrendMethod where
  | linear
  | mean

/-- Modelled from the spec: the closed set of transform variants.  The
boxcox and yeojohnson lambda selection (mle over a bounded range, or a fixed
lambda) is modelled by an arbitrary selection function from the fitted
sequence to the lambda, which covers both methods. -/
inductive Transform where
  | diff (order sp : ℕ)
  | fractional_diff (d min_weight : ℝ)
  | detrend (method : DetrendMethod)
  | deseasonalize_fourier (sp K : ℕ)
  | scale (use_mean use_std : Bool)
  | boxcox (chooseLambda : List ℝ → ℝ)
  | yeojohnson (chooseLambda : List ℝ → ℝ)

/-! ### Shared numeric utilities -/

/-- Mean of a sequence. -/
def mean (xs : List ℝ) : ℝ := xs.sum / xs.length

/-- Population variance of a sequence. -/
def variance (xs : List ℝ) : ℝ :=
  ((xs.map fun x => (x - mean xs) ^ 2).sum) / xs.length

/-- Standard deviation of a sequence. -/
def std (xs : List ℝ) : ℝ := Real.sqrt (variance xs)

/-- Truncating dot product of two lists. -/
def dotProd (as bs : List ℝ) : ℝ := (List.zipWith (· * ·) as bs).sum

/-! ### Difference -/

/-- Modelled from the spec: forward output at position i is
x i - x (i - order * sp); implemented as a truncating zipWith against the
sequence shifted by the lag. -/
def diffFwd (lag : ℕ) (xs : List ℝ) : List ℝ :=
  List.zipWith (· - ·) (xs.drop lag) xs

/-- Modelled from the spec: invert is a cumulative sum reconstruction walking
forward from the stored seed values; the first argument is the sliding window
of the last lag reconstructed values. -/
def diffUndo : List ℝ → List ℝ → List ℝ
  | _, [] => []
  | [], _ :: _ => []
  | v :: w, y :: ys => (y + v) :: diffUndo (w ++ [y + v]) ys

/-! ### Fractional difference -/

/-- Modelled from the spec: binomial series filter weights with w 0 = 1 and
w k = w (k-1) * (d - k + 1) / k. -/
def fracWeight (d : ℝ) : ℕ → ℝ
  | 0 => 1
  | k + 1 => fracWeight d k * (d - k) / (k + 1)

/-- Modelled from the spec: the weights are truncated at the first index
whose weight has absolute value below min_weight. -/
def truncLen (d mw : ℝ) : ℕ :=
  if h : ∃ k, |fracWeight d k| < mw then Nat.find h else 0

/-- Modelled from the spec: the retained weight vector, shared across
entities since it depends only on d and min_weight. -/
def fracWeights (d mw : ℝ) : List ℝ :=
  (List.range (truncLen d mw)).map (fracWeight d)

/-- Modelled from the spec: the forward output is a weighted moving sum over
a history window whose length equals the number of retained weights.  The
weight list is passed reversed so each window pairs ascending positions with
descending lag. -/
def slidingDot (wrev : List ℝ) : List ℝ → List ℝ
  | [] => []
  | x :: xs =>
    if wrev.length ≤ xs.length + 1 then
      dotProd wrev (x :: xs) :: slidingDot wrev xs
    else []

/-- Modelled from the spec: invert solves the truncated linear recurrence
using the stored raw history; w0rev holds the reversed weights of lag one and
above, and since w 0 = 1 each new original value is the output value minus
the weighted window. -/
def fracUndo (w0rev : List ℝ) : List ℝ → List ℝ → List ℝ
  | _, [] => []
  | w, y :: ys =>
    (y - dotProd w0rev w) :: fracUndo w0rev ((w ++ [y - dotProd w0rev w]).drop 1) ys

/-! ### Detrend and Fourier deseasonalization -/

/-- Ordinary least squares slope of a sequence against the index 0,1,2,... -/
def olsSlope (xs : List ℝ) : ℝ :=
  let n : ℝ := xs.length
  let ts : List ℝ := (List.range xs.length).map fun t : ℕ => (t : ℝ)
  (n * dotProd ts xs - ts.sum * xs.sum) / (n * dotProd ts ts - ts.sum ^ 2)

/-- Ordinary least squares intercept of a sequence against the index. -/
def olsIntercept (xs : List ℝ) : ℝ :=
  (xs.sum - olsSlope xs * ((List.range xs.length).map fun t : ℕ => (t : ℝ)).sum) /
    xs.length

/-- Trend line evaluated at the indices 0,...,n-1. -/
def trendSeries (a b : ℝ) (n : ℕ) : List ℝ :=
  (List.range n).map fun t : ℕ => a + b * t

/-- Modelled from the spec: Fourier regressor value number i at time t, the
sine and cosine at harmonics 1..K of period sp interleaved. -/
def fourierFeat (sp i t : ℕ) : ℝ :=
  let theta : ℝ := 2 * Real.pi * (i / 2 + 1 : ℕ) * t / sp
  if i % 2 = 0 then Real.sin theta else Real.cos theta

/-- The list of the 2K Fourier regressor values at time t. -/
def fourierFeats (sp K t : ℕ) : List ℝ :=
  (List.range (2 * K)).map fun i => fourierFeat sp i t

/-- Modelled from the spec: per entity ordinary least squares coefficients of
the series against the 2K Fourier columns, through the normal equations. -/
def fourierFit (sp K : ℕ) (xs : List ℝ) : List ℝ :=
  let A : Matrix (Fin (2 * K)) (Fin (2 * K)) ℝ := fun i j =>
    ∑ t ∈ Finset.range xs.length, fourierFeat sp i.val t * fourierFeat sp j.val t
  let b : Fin (2 * K) → ℝ := fun i =>
    ∑ t ∈ Finset.range xs.length, fourierFeat sp i.val t * xs.getD t 0
  List.ofFn (A⁻¹.mulVec b)

/-- The fitted seasonal component series of length n from the coefficients. -/
def seasonalSeries (sp K : ℕ) (coeffs : List ℝ) (n : ℕ) : List ℝ :=
  (List.range n).map fun t => dotProd coeffs (fourierFeats sp K t)

/-- The fitted seasonal component of a sequence. -/
def seasonalOf (sp K : ℕ) (xs : List ℝ) : List ℝ :=
  seasonalSeries sp K (fourierFit sp K xs) xs.length

/-! ### Power transforms -/

/-- Modelled from the spec: Box Cox forward map, (x ^ lam - 1) / lam for lam
not zero and log x for lam zero. -/
def bcFwd (lam x : ℝ) : ℝ :=
  if lam = 0 then Real.log x else (x ^ lam - 1) / lam

/-- Modelled from the spec: Box Cox exact algebraic inverse, failing with
InvertDomainError outside the domain of the inverse map. -/
def bcInvVal (lam y : ℝ) : Except TErr ℝ :=
  if lam = 0 then .ok (Real.exp y)
  else if 0 < lam * y + 1 then .ok ((lam * y + 1) ^ (1 / lam))
  else .error .invertDomain

/-- Modelled from the spec: Yeo Johnson forward map, two branches by the sign
of x. -/
def yjFwd (lam x : ℝ) : ℝ :=
  if 0 ≤ x then
    if lam = 0 then Real.log (x + 1) else ((x + 1) ^ lam - 1) / lam
  else
    if lam = 2 then -Real.log (1 - x)
    else -((1 - x) ^ (2 - lam) - 1) / (2 - lam)

/-- Modelled from the spec: Yeo Johnson piecewise inverse by the sign of the
transformed value. -/
def yjInv (lam y : ℝ) : ℝ :=
  if 0 ≤ y then
    if lam = 0 then Real.exp y - 1 else (lam * y + 1) ^ (1 / lam) - 1
  else
    if lam = 2 then 1 - Real.exp (-y)
    else 1 - (1 - (2 - lam) * y) ^ (1 / (2 - lam))

/-- Modelled from the spec: the location used by scale, the mean when
use_mean is set and zero otherwise. -/
def scaleMean (um : Bool) (xs : List ℝ) : ℝ := if um then mean xs else 0

/-- Modelled from the spec: the dispersion used by scale, the std when
use_std is set and one otherwise. -/
def scaleStd (us : Bool) (xs : List ℝ) : ℝ := if us then std xs else 1

/-- Effectful map over a sequence, failing on the first failing value. -/
def mapE (f : ℝ → Except TErr ℝ) : List ℝ → Except TErr (List ℝ)
  | [] => .ok []
  | x :: xs =>
    match f x with
    | .error e => .error e
    | .ok y =>
      match mapE f xs with
      | .error e => .error e
      | .ok ys => .ok (y :: ys)

/-! ### Per entity fit plus forward application -/

/-- Modelled from the spec: for one entity, compute fit parameters from the
full sequence, store them, and produce the forward transformed sequence;
preconditions are transform specific and reported synchronously. -/
def fitEntity : Transform → List ℝ → Except TErr (List ℝ × EntityState)
  | .diff order sp, xs =>
    if sp = 0 then .error .preconditionViolation
    else if order = 0 then .ok (xs, .diffS [])
    else if xs.length < order * sp + 1 then .error .preconditionViolation
    else .ok (diffFwd (order * sp) xs, .diffS (xs.take (order * sp)))
  | .fractional_diff d mw, xs =>
    if truncLen d mw = 0 then .error .preconditionViolation
    else
      .ok (slidingDot (fracWeights d mw).reverse xs,
           .fracS (xs.take (truncLen d mw - 1)))
  | .detrend method, xs =>
    match method with
    | .linear =>
      .ok (List.zipWith (· - ·) xs (trendSeries (olsIntercept xs) (olsSlope xs) xs.length),
           .trendS (olsIntercept xs) (olsSlope xs))
    | .mean =>
      .ok (List.zipWith (· - ·) xs (trendSeries (mean xs) 0 xs.length),
           .trendS (mean xs) 0)
  | .deseasonalize_fourier sp K, xs =>
    if xs.length ≤ 2 * K + 1 then .error .insufficientData
    else
      .ok (List.zipWith (· - ·) xs (seasonalOf sp K xs),
           .fourierS (fourierFit sp K xs) (seasonalOf sp K xs))
  | .scale um us, xs =>
    if us ∧ std xs = 0 then .error .degenerateVariance
    else
      .ok (xs.map fun x => (x - scaleMean um xs) / scaleStd us xs,
           .scaleS (scaleMean um xs) (scaleStd us xs))
  | .boxcox f, xs =>
    if ∃ v ∈ xs, v ≤ 0 then .error .nonPositiveValue
    else .ok (xs.map (bcFwd (f xs)), .lamS (f xs))
  | .yeojohnson f, xs =>
    .ok (xs.map (yjFwd (f xs)), .lamS (f xs))

/-- Modelled from the spec: for one entity, reconstruct the original scale
values from the stored state. -/
def invEntity : Transform → EntityState → List ℝ → Except TErr (List ℝ)
  | .diff order _, .diffS seed, ys =>
    if order = 0 then .ok ys else .ok (seed ++ diffUndo seed ys)
  | .fractional_diff d mw, .fracS hist, ys =>
    .ok (hist ++ fracUndo ((fracWeights d mw).drop 1).reverse hist ys)
  | .detrend _, .trendS a b, ys =>
    .ok (List.zipWith (· + ·) ys (trendSeries a b ys.length))
  | .deseasonalize_fourier sp K, .fourierS coeffs _, ys =>
    .ok (List.zipWith (· + ·) ys (seasonalSeries sp K coeffs ys.length))
  | .scale _ _, .scaleS m s, ys =>
    .ok (ys.map fun y => y * s + m)
  | .boxcox _, .lamS lam, ys => mapE (bcInvVal lam) ys
  | .yeojohnson _, .lamS lam, ys => .ok (ys.map (yjInv lam))
  | _, _, _ => .error .preconditionViolation

/-! ### Panel level operations -/

/-- Modelled from the spec: fit and apply over each entity independently,
failing the whole batch on the first violating entity. -/
def fitPanel (f : List ℝ → Except TErr (List ℝ × EntityState)) :
    Panel → Except TErr (Panel × StateMap)
  | [] => .ok ([], [])
  | (e, xs) :: rest =>
    match f xs with
    | .error err => .error err
    | .ok (ys, st) =>
      match fitPanel f rest with
      | .error err => .error err
      | .ok (qs, ss) => .ok ((e, ys) :: qs, (e, st) :: ss)

/-- Modelled from the spec: invert looks up the stored state of each entity
present in the panel, failing with MissingStateError if absent. -/
def invPanel (g : EntityState → List ℝ → Except TErr (List ℝ)) (S : StateMap) :
    Panel → Except TErr Panel
  | [] => .ok []
  | (e, ys) :: rest =>
    match List.lookup e S with
    | none => .error .missingState
    | some st =>
      match g st ys with
      | .error err => .error err
      | .ok xs =>
        match invPanel g S rest with
        | .error err => .error err
        | .ok qs => .ok ((e, xs) :: qs)

/-- Modelled from the spec: fit_apply computes fit parameters per entity,
stores them in the state, and returns the transformed panel with the state. -/
def fit_apply (t : Transform) (P : Panel) : Except TErr (Panel × StateMap) :=
  fitPanel (fitEntity t) P

/-- Modelled from the spec: invert reconstructs original scale values from
the stored TransformState. -/
def invert (t : Transform) (S : StateMap) (P : Panel) : Except TErr Panel :=
  invPanel (invEntity t) S P

/-- Modelled from the spec: named artifacts retained for inspection; the
Fourier transform exposes the fitted seasonal component under the key
X_seasonal, the other transforms expose none. -/
def artifactsOf (t : Transform) (S : StateMap) : List (String × Panel) :=
  match t with
  | .deseasonalize_fourier _ _ =>
    [("X_seasonal",
      S.filterMap fun es =>
        match es.2 with
        | .fourierS _ sea => some (es.1, sea)
        | _ => none)]
  | _ => []

/-! ### Pipeline -/

/-- Modelled from the spec: fit_apply threads the panel through each
Transform in declared order, accumulating states. -/
def pipeline_fit_apply : List Transform → Panel → Except TErr (Panel × List StateMap)
  | [], P => .ok (P, [])
  | t :: ts, P =>
    match fit_apply t P with
    | .error err => .error err
    | .ok (Q, S) =>
      match pipeline_fit_apply ts Q with
      | .error err => .error err
      | .ok (R, Ss) => .ok (R, S :: Ss)

/-- Applies the stored transforms in the given order. -/
def pipelineInvAux : List (Transform × StateMap) → Panel → Except TErr Panel
  | [], P => .ok P
  | (t, S) :: rest, P =>
    match invert t S P with
    | .error err => .error err
    | .ok Q => pipelineInvAux rest Q

/-- Modelled from the spec: pipeline invert requires the pipeline to have
been fit, failing with PipelineNotFittedError otherwise, and applies each
stored Transform invert in reverse declared order. -/
def pipeline_invert (ts : List Transform) (fitted : Option (List StateMap))
    (P : Panel) : Except TErr Panel :=
  match fitted with
  | none => .error .pipelineNotFitted
  | some Ss => pipelineInvAux ((ts.zip Ss).reverse) P

/-! ### CUSUM detector -/

/-- Modelled from the spec: the CUSUM parameters threshold, warmup_period and
drift; eps is the documented policy for a zero warmup standard deviation,
which is substituted for sigma to avoid division by zero. -/
structure CusumParams where
  threshold : ℝ
  warmup_period : ℕ
  drift : ℝ
  eps : ℝ

/-- Modelled from the spec: the per run CUSUM state, a warmup buffer, the
running mean and std, the two cumulative accumulators and the warmup flag. -/
structure CusumState where
  buffer : List ℝ
  mu : ℝ
  sigma : ℝ
  sPos : ℝ
  sNeg : ℝ
  warm : Bool

/-- The initial CUSUM state: empty buffer, in warmup. -/
def cusumInit : CusumState :=
  { buffer := [], mu := 0, sigma := 0, sPos := 0, sNeg := 0, warm := true }

/-- Modelled from the spec: one CUSUM step.  In Warmup the value is
accumulated and no event is emitted; once warmup_period values are collected
the mean and std are estimated and the detector transitions to Monitoring
with zero accumulators.  In Monitoring the standardized move updates the two
accumulators, and crossing the threshold emits an event flag of one, resets
the accumulators, clears the buffer and returns to Warmup. -/
def cusumStep (p : CusumParams) (st : CusumState) (x : ℝ) : CusumState × ℕ :=
  if st.warm then
    let buf := st.buffer ++ [x]
    if buf.length < p.warmup_period then
      ({ st with buffer := buf }, 0)
    else
      let m := mean buf
      let s := std buf
      ({ buffer := buf, mu := m, sigma := if s = 0 then p.eps else s,
         sPos := 0, sNeg := 0, warm := false }, 0)
  else
    let z := (x - st.mu) / st.sigma
    let sp := max 0 (st.sPos + z - p.drift)
    let sn := min 0 (st.sNeg + z + p.drift)
    if p.threshold < sp ∨ sn < -p.threshold then
      ({ buffer := [], mu := st.mu, sigma := st.sigma,
         sPos := 0, sNeg := 0, warm := true }, 1)
    else
      ({ st with sPos := sp, sNeg := sn }, 0)

/-- Runs the detector from a state over a sequence, emitting one flag per
input value. -/
def cusumRun (p : CusumParams) (st : CusumState) : List ℝ → List ℕ
  | [] => []
  | x :: xs =>
    (cusumStep p st x).2 :: cusumRun p (cusumStep p st x).1 xs

/-- Modelled from the spec: the cusum operation exposed through the ts
namespace, a sequence of 0 or 1 flags aligned one to one with the input. -/
def cusum (threshold : ℝ) (warmup_period : ℕ) (drift eps : ℝ)
    (xs : List ℝ) : List ℕ :=
  cusumRun ⟨threshold, warmup_period, drift, eps⟩ cusumInit xs

/-- The detector state just before step i of a run. -/
def cusumStateAt (p : CusumParams) (xs : List ℝ) (i : ℕ) : CusumState :=
  (xs.take i).foldl (fun s x => (cusumStep p s x).1) cusumInit

/-- The six transforms named by the invertibility property (every Transform
variant except the fractional difference). -/
def classicSix : Transform → Prop
  | .fractional_diff _ _ => False
  | _ => True

/-- Absolute error between two panels, summed over entities and positions. -/
def panelError (P Q : Panel) : ℝ :=
  ((P.zip Q).map fun pq =>
    ((pq.1.2.zip pq.2.2).map fun vv => |vv.1 - vv.2|).sum).sum

/-- The absolute error of invert applied to the fit_apply output of the
fractional difference, against the original panel; zero when either call
reports an error. -/
def fracRoundError (d mw : ℝ) (P : Panel) : ℝ :=
  match fit_apply (.fractional_diff d mw) P with
  | .error _ => 0
  | .ok (Q, S) =>
    match invert (.fractional_diff d mw) S Q with
    | .error _ => 0
    | .ok R => panelError P R


/-! ### Helper lemmas: pointwise round trips -/

theorem zip_sub_add (xs s : List ℝ) (h : s.length = xs.length) :
    List.zipWith (· + ·) (List.zipWith (· - ·) xs s) s = xs := by
  induction xs generalizing s with
  | nil => cases s <;> simp_all
  | cons x xs ih =>
    cases s with
    | nil => simp at h
    | cons a s =>
      simp only [List.length_cons, Nat.succ_inj] at h
      simp [ih s h]

theorem trendSeries_length (a b : ℝ) (n : ℕ) : (trendSeries a b n).length = n := by
  unfold trendSeries
  rw [List.length_map, List.length_range]

theorem seasonalSeries_length (sp K : ℕ) (c : List ℝ) (n : ℕ) :
    (seasonalSeries sp K c n).length = n := by
  unfold seasonalSeries
  rw [List.length_map, List.length_range]

theorem scale_value_round (m s x : ℝ) (hs : s ≠ 0) : (x - m) / s * s + m = x := by
  field_simp

theorem dotProd_take (as : List ℝ) :
    ∀ bs : List ℝ, dotProd as (bs.take as.length) = dotProd as bs := by
  induction as with
  | nil => intro bs; simp [dotProd]
  | cons a as ih =>
    intro bs
    cases bs with
    | nil => simp
    | cons b bs => simp [dotProd, List.zipWith_cons_cons] at ih ⊢; rw [ih]

theorem dotProd_concat (a : ℝ) (as : List ℝ) :
    ∀ bs : List ℝ, as.length < bs.length →
      dotProd (as ++ [a]) bs = dotProd as bs + a * bs.getD as.length 0 := by
  induction as with
  | nil =>
    intro bs h
    cases bs with
    | nil => simp at h
    | cons b bs => simp [dotProd]
  | cons a0 as ih =>
    intro bs h
    cases bs with
    | nil => simp at h
    | cons b bs =>
      simp only [List.length_cons, Nat.succ_lt_succ_iff] at h
      simp only [List.cons_append, dotProd, List.zipWith_cons_cons, List.sum_cons,
        List.length_cons, List.getD_cons_succ]
      have := ih bs h
      simp only [dotProd] at this
      rw [this]; ring

/-! ### Difference round trip -/

theorem diffUndo_spec (d : ℕ) (hd : d ≠ 0) :
    ∀ xs : List ℝ,
      diffUndo (xs.take d) (List.zipWith (· - ·) (xs.drop d) xs) = xs.drop d := by
  obtain ⟨e, rfl⟩ : ∃ e, e + 1 = d :=
    ⟨d - 1, Nat.succ_pred_eq_of_pos (Nat.pos_of_ne_zero hd)⟩
  intro xs
  induction xs with
  | nil => simp [diffUndo]
  | cons x xs ih =>
    rw [List.take_succ_cons, List.drop_succ_cons]
    by_cases he : e < xs.length
    · rw [List.drop_eq_getElem_cons he, List.zipWith_cons_cons]
      show (xs[e] - x + x) :: diffUndo (xs.take e ++ [xs[e] - x + x]) _ = _
      have hxx : xs[e] - x + x = xs[e] := by ring
      rw [hxx, List.take_concat_get']
      rw [ih]
    · push_neg at he
      rw [List.drop_eq_nil_of_le he]
      simp [diffUndo]

/-! ### Fractional difference round trip -/

theorem fracUndo_spec (w0rev : List ℝ) :
    ∀ xs : List ℝ,
      fracUndo w0rev (xs.take w0rev.length) (slidingDot (w0rev ++ [1]) xs)
        = xs.drop w0rev.length := by
  intro xs
  induction xs with
  | nil => simp [slidingDot, fracUndo]
  | cons x xs ih =>
    rw [slidingDot]
    by_cases hm : w0rev.length ≤ xs.length
    · have hcond : (w0rev ++ [1]).length ≤ xs.length + 1 := by
        simp [List.length_append]; omega
      rw [if_pos hcond]
      have hlen : w0rev.length < (x :: xs).length := by
        simp [List.length_cons]; omega
      show (dotProd (w0rev ++ [1]) (x :: xs) - dotProd w0rev ((x :: xs).take w0rev.length))
          :: fracUndo w0rev _ _ = _
      have hy : dotProd (w0rev ++ [1]) (x :: xs)
          - dotProd w0rev ((x :: xs).take w0rev.length)
          = (x :: xs).getD w0rev.length 0 := by
        rw [dotProd_concat 1 w0rev (x :: xs) hlen, dotProd_take w0rev (x :: xs)]
        ring
      rw [hy]
      have hget : (x :: xs).getD w0rev.length 0 = (x :: xs)[w0rev.length] :=
        List.getD_eq_getElem (x :: xs) 0 hlen
      rw [hget, List.take_concat_get', List.take_succ_cons, List.drop_one,
        List.tail_cons, ih, List.drop_eq_getElem_cons hlen, List.drop_succ_cons]
    · push_neg at hm
      rw [if_neg (by simp [List.length_append]; omega)]
      have : (x :: xs).drop w0rev.length = [] :=
        List.drop_eq_nil_of_le (by simp [List.length_cons]; omega)
      rw [this]
      rfl

/-! ### Power transform round trips -/

theorem bc_round (lam x : ℝ) (hx : 0 < x) : bcInvVal lam (bcFwd lam x) = .ok x := by
  unfold bcFwd bcInvVal
  by_cases hl : lam = 0
  · simp [hl, Real.exp_log hx]
  · rw [if_neg hl, if_neg hl]
    have hpow : lam * ((x ^ lam - 1) / lam) + 1 = x ^ lam := by field_simp
    rw [hpow, if_pos (Real.rpow_pos_of_pos hx lam), ← Real.rpow_mul hx.le,
      mul_one_div_cancel hl, Real.rpow_one]

theorem mapE_bc (lam : ℝ) (xs : List ℝ) (h : ∀ x ∈ xs, 0 < x) :
    mapE (bcInvVal lam) (xs.map (bcFwd lam)) = .ok xs := by
  induction xs with
  | nil => rfl
  | cons x xs ih =>
    have hx : 0 < x := h x (List.mem_cons_self x xs)
    have hxs : ∀ x ∈ xs, 0 < x := fun v hv => h v (List.mem_cons_of_mem x hv)
    simp only [List.map_cons, mapE, bc_round lam x hx, ih hxs]

theorem yj_round (lam x : ℝ) : yjInv lam (yjFwd lam x) = x := by
  unfold yjFwd yjInv
  by_cases hx : 0 ≤ x
  · rw [if_pos hx]
    by_cases hl : lam = 0
    · rw [if_pos hl]
      have h1 : (0 : ℝ) < x + 1 := by linarith
      rw [if_pos (Real.log_nonneg (by linarith)), if_pos hl, Real.exp_log h1]
      ring
    · rw [if_neg hl]
      have h1 : (1 : ℝ) ≤ x + 1 := by linarith
      have hy : 0 ≤ ((x + 1) ^ lam - 1) / lam := by
        rcases lt_or_gt_of_ne hl with hneg | hpos
        · exact div_nonneg_of_nonpos
            (by linarith [Real.rpow_le_one_of_one_le_of_nonpos h1 hneg.le]) hneg.le
        · exact div_nonneg
            (by linarith [Real.one_le_rpow h1 hpos.le]) hpos.le
      rw [if_pos hy, if_neg hl]
      have hpow : lam * (((x + 1) ^ lam - 1) / lam) + 1 = (x + 1) ^ lam := by
        field_simp
      rw [hpow, ← Real.rpow_mul (by linarith), mul_one_div_cancel hl, Real.rpow_one]
      ring
  · push_neg at hx
    rw [if_neg (not_le.mpr hx)]
    have hu : (1 : ℝ) < 1 - x := by linarith
    have hu0 : (0 : ℝ) < 1 - x := by linarith
    by_cases hl : lam = 2
    · rw [if_pos hl]
      have hlog : 0 < Real.log (1 - x) := Real.log_pos hu
      rw [if_neg (by linarith), if_pos hl, neg_neg, Real.exp_log hu0]
      ring
    · rw [if_neg hl]
      have hnu : (2 : ℝ) - lam ≠ 0 := sub_ne_zero.mpr (Ne.symm hl)
      have hy : -((1 - x) ^ (2 - lam) - 1) / (2 - lam) < 0 := by
        rcases lt_or_gt_of_ne hnu with hneg | hpos
        · have hlt : (1 - x) ^ (2 - lam) < 1 :=
            Real.rpow_lt_one_of_one_lt_of_neg hu hneg
          exact div_neg_of_pos_of_neg (by linarith) hneg
        · have hlt : 1 < (1 - x) ^ (2 - lam) := Real.one_lt_rpow hu hpos
          exact div_neg_of_neg_of_pos (by linarith) hpos
      rw [if_neg (not_le.mpr hy), if_neg hl]
      have hpow : 1 - (2 - lam) * (-((1 - x) ^ (2 - lam) - 1) / (2 - lam))
          = (1 - x) ^ (2 - lam) := by field_simp
      rw [hpow, ← Real.rpow_mul hu0.le, mul_one_div_cancel hnu, Real.rpow_one]
      ring

theorem map_round (f g : ℝ → ℝ) (xs : List ℝ) (h : ∀ x ∈ xs, g (f x) = x) :
    (xs.map f).map g = xs := by
  induction xs with
  | nil => rfl
  | cons x xs ih =>
    simp only [List.map_cons, h x (List.mem_cons_self x xs),
      ih fun v hv => h v (List.mem_cons_of_mem x hv)]

theorem fracWeights_head (d mw : ℝ) (h0 : truncLen d mw ≠ 0) :
    ∃ T : List ℝ, fracWeights d mw = 1 :: T ∧ T.length = truncLen d mw - 1 := by
  obtain ⟨e, he⟩ : ∃ e, e + 1 = truncLen d mw :=
    ⟨truncLen d mw - 1, Nat.succ_pred_eq_of_pos (Nat.pos_of_ne_zero h0)⟩
  refine ⟨(List.range e).map fun k => fracWeight d (k + 1), ?_, by simp [← he]⟩
  rw [fracWeights, ← he, List.range_succ_eq_map, List.map_cons, List.map_map]
  rfl

/-! ### Per entity invertibility: invert of fit_apply is the identity -/

theorem fitEntity_invEntity (t : Transform) (xs ys : List ℝ) (st : EntityState)
    (h : fitEntity t xs = .ok (ys, st)) : invEntity t st ys = .ok xs := by
  cases t with
  | diff order sp =>
    simp only [fitEntity] at h
    split_ifs at h with h0 h1 h2
    · rw [Except.ok.injEq, Prod.mk.injEq] at h
      obtain ⟨rfl, rfl⟩ := h
      simp [invEntity, h1]
    · rw [Except.ok.injEq, Prod.mk.injEq] at h
      obtain ⟨rfl, rfl⟩ := h
      have hd : order * sp ≠ 0 := Nat.mul_ne_zero h1 h0
      simp only [invEntity, if_neg h1, diffFwd]
      rw [diffUndo_spec (order * sp) hd xs, List.take_append_drop]
  | fractional_diff d mw =>
    simp only [fitEntity] at h
    split_ifs at h with h0
    rw [Except.ok.injEq, Prod.mk.injEq] at h
    obtain ⟨rfl, rfl⟩ := h
    obtain ⟨T, hT, hTlen⟩ := fracWeights_head d mw h0
    simp only [invEntity, hT, List.reverse_cons, List.drop_succ_cons,
      List.drop_zero]
    rw [← hTlen, ← List.length_reverse T, fracUndo_spec (T.reverse) xs,
      List.take_append_drop]
  | detrend method =>
    cases method with
    | linear =>
      simp only [fitEntity] at h
      rw [Except.ok.injEq, Prod.mk.injEq] at h
      obtain ⟨rfl, rfl⟩ := h
      have hlen : (List.zipWith (· - ·) xs
          (trendSeries (olsIntercept xs) (olsSlope xs) xs.length)).length
          = xs.length := by
        rw [List.length_zipWith, trendSeries_length, Nat.min_self]
      simp only [invEntity]
      rw [hlen, zip_sub_add xs _ (trendSeries_length _ _ _)]
    | mean =>
      simp only [fitEntity] at h
      rw [Except.ok.injEq, Prod.mk.injEq] at h
      obtain ⟨rfl, rfl⟩ := h
      have hlen : (List.zipWith (· - ·) xs
          (trendSeries (mean xs) 0 xs.length)).length = xs.length := by
        rw [List.length_zipWith, trendSeries_length, Nat.min_self]
      simp only [invEntity]
      rw [hlen, zip_sub_add xs _ (trendSeries_length _ _ _)]
  | deseasonalize_fourier sp K =>
    simp only [fitEntity] at h
    split_ifs at h with h0
    rw [Except.ok.injEq, Prod.mk.injEq] at h
    obtain ⟨rfl, rfl⟩ := h
    have hlen : (List.zipWith (· - ·) xs (seasonalOf sp K xs)).length
        = xs.length := by
      rw [List.length_zipWith, seasonalOf, seasonalSeries_length, Nat.min_self]
    simp only [invEntity]
    rw [hlen]
    exact congrArg Except.ok
      (zip_sub_add xs _ (by rw [seasonalOf, seasonalSeries_length]))
  | scale um us =>
    simp only [fitEntity] at h
    split_ifs at h with h0
    rw [Except.ok.injEq, Prod.mk.injEq] at h
    obtain ⟨rfl, rfl⟩ := h
    have hs : scaleStd us xs ≠ 0 := by
      cases us with
      | false => simp [scaleStd]
      | true =>
        simp only [scaleStd, if_pos rfl]
        intro hz
        exact h0 ⟨rfl, hz⟩
    simp only [invEntity]
    rw [map_round _ _ xs fun x _ => scale_value_round _ _ x hs]
  | boxcox f =>
    simp only [fitEntity] at h
    split_ifs at h with h0
    rw [Except.ok.injEq, Prod.mk.injEq] at h
    obtain ⟨rfl, rfl⟩ := h
    push_neg at h0
    exact mapE_bc (f xs) xs fun v hv => h0 v hv
  | yeojohnson f =>
    simp only [fitEntity] at h
    rw [Except.ok.injEq, Prod.mk.injEq] at h
    obtain ⟨rfl, rfl⟩ := h
    simp only [invEntity]
    rw [map_round _ _ xs fun x _ => yj_round (f xs) x]

/-! ### Panel level invertibility -/

theorem fitPanel_keys (f : List ℝ → Except TErr (List ℝ × EntityState)) :
    ∀ (P Q : Panel) (S : StateMap), fitPanel f P = .ok (Q, S) →
      Q.map Prod.fst = P.map Prod.fst ∧ S.map Prod.fst = P.map Prod.fst := by
  intro P
  induction P with
  | nil =>
    intro Q S h
    simp only [fitPanel, Except.ok.injEq, Prod.mk.injEq] at h
    obtain ⟨rfl, rfl⟩ := h
    exact ⟨rfl, rfl⟩
  | cons p rest ih =>
    intro Q S h
    obtain ⟨e, xs⟩ := p
    simp only [fitPanel] at h
    cases hfe : f xs with
    | error err => rw [hfe] at h; simp at h
    | ok r =>
      obtain ⟨ys, st⟩ := r
      rw [hfe] at h
      cases hrest : fitPanel f rest with
      | error err => rw [hrest] at h; simp at h
      | ok r2 =>
        obtain ⟨qs, ss⟩ := r2
        rw [hrest] at h
        rw [Except.ok.injEq, Prod.mk.injEq] at h
        obtain ⟨rfl, rfl⟩ := h
        obtain ⟨hq, hs⟩ := ih qs ss hrest
        simp [hq, hs]

theorem invPanel_cons_skip (g : EntityState → List ℝ → Except TErr (List ℝ))
    (e : String) (st : EntityState) (ss : StateMap) :
    ∀ qs : Panel, e ∉ qs.map Prod.fst →
      invPanel g ((e, st) :: ss) qs = invPanel g ss qs := by
  intro qs
  induction qs with
  | nil => intro _; rfl
  | cons q rest ih =>
    intro hmem
    obtain ⟨e1, ys⟩ := q
    simp only [List.map_cons, List.mem_cons, not_or] at hmem
    obtain ⟨hne, hrest⟩ := hmem
    have hbeq : (e1 == e) = false := beq_eq_false_iff_ne.mpr (Ne.symm hne)
    simp only [invPanel, List.lookup, hbeq, ih hrest]

theorem fit_invert_entitywise (t : Transform) :
    ∀ (P Q : Panel) (S : StateMap),
      (P.map Prod.fst).Nodup → fit_apply t P = .ok (Q, S) →
      invert t S Q = .ok P := by
  intro P
  induction P with
  | nil =>
    intro Q S _ h
    simp only [fit_apply, fitPanel, Except.ok.injEq, Prod.mk.injEq] at h
    obtain ⟨rfl, rfl⟩ := h
    rfl
  | cons p rest ih =>
    intro Q S hnd h
    obtain ⟨e, xs⟩ := p
    simp only [fit_apply, fitPanel] at h
    cases hfe : fitEntity t xs with
    | error err => rw [hfe] at h; simp at h
    | ok r =>
      obtain ⟨ys, st⟩ := r
      rw [hfe] at h
      cases hrest : fitPanel (fitEntity t) rest with
      | error err => rw [hrest] at h; simp at h
      | ok r2 =>
        obtain ⟨qs, ss⟩ := r2
        rw [hrest] at h
        rw [Except.ok.injEq, Prod.mk.injEq] at h
        obtain ⟨rfl, rfl⟩ := h
        simp only [List.map_cons, List.nodup_cons] at hnd
        obtain ⟨hmem, hnd2⟩ := hnd
        have hQkeys := (fitPanel_keys (fitEntity t) rest qs ss hrest).1
        have hskip : e ∉ qs.map Prod.fst := by rw [hQkeys]; exact hmem
        simp only [invert, invPanel, List.lookup, beq_self_eq_true]
        rw [fitEntity_invEntity t xs ys st hfe]
        rw [invPanel_cons_skip (invEntity t) e st ss qs hskip]
        have := ih qs ss hnd2 hrest
        simp only [invert] at this
        rw [this]

/-! ### Pipeline invertibility -/

theorem pipelineInvAux_append (l1 l2 : List (Transform × StateMap)) :
    ∀ P : Panel, pipelineInvAux (l1 ++ l2) P =
      match pipelineInvAux l1 P with
      | .error err => .error err
      | .ok Q => pipelineInvAux l2 Q := by
  induction l1 with
  | nil => intro P; rfl
  | cons p l1 ih =>
    intro P
    obtain ⟨t, S⟩ := p
    simp only [List.cons_append, pipelineInvAux]
    cases invert t S P with
    | error err => rfl
    | ok Q => exact ih Q

theorem pipeline_keys :
    ∀ (ts : List Transform) (P Q : Panel) (Ss : List StateMap),
      pipeline_fit_apply ts P = .ok (Q, Ss) →
      Q.map Prod.fst = P.map Prod.fst := by
  intro ts
  induction ts with
  | nil =>
    intro P Q Ss h
    simp only [pipeline_fit_apply, Except.ok.injEq, Prod.mk.injEq] at h
    rw [h.1]
  | cons t ts ih =>
    intro P Q Ss h
    simp only [pipeline_fit_apply] at h
    cases hfa : fit_apply t P with
    | error err => rw [hfa] at h; simp at h
    | ok r =>
      obtain ⟨Q1, S⟩ := r
      rw [hfa] at h
      dsimp only at h
      cases hrest : pipeline_fit_apply ts Q1 with
      | error err => rw [hrest] at h; simp at h
      | ok r2 =>
        obtain ⟨R, Ss2⟩ := r2
        rw [hrest] at h
        rw [Except.ok.injEq, Prod.mk.injEq] at h
        obtain ⟨rfl, rfl⟩ := h
        rw [ih Q1 R Ss2 hrest, (fitPanel_keys (fitEntity t) P Q1 S hfa).1]

theorem pipeline_round :
    ∀ (ts : List Transform) (P Q : Panel) (Ss : List StateMap),
      (P.map Prod.fst).Nodup → pipeline_fit_apply ts P = .ok (Q, Ss) →
      pipelineInvAux ((ts.zip Ss).reverse) Q = .ok P := by
  intro ts
  induction ts with
  | nil =>
    intro P Q Ss _ h
    simp only [pipeline_fit_apply, Except.ok.injEq, Prod.mk.injEq] at h
    obtain ⟨rfl, rfl⟩ := h
    rfl
  | cons t ts ih =>
    intro P Q Ss hnd h
    simp only [pipeline_fit_apply] at h
    cases hfa : fit_apply t P with
    | error err => rw [hfa] at h; simp at h
    | ok r =>
      obtain ⟨Q1, S⟩ := r
      rw [hfa] at h
      dsimp only at h
      cases hrest : pipeline_fit_apply ts Q1 with
      | error err => rw [hrest] at h; simp at h
      | ok r2 =>
        obtain ⟨R, Ss2⟩ := r2
        rw [hrest] at h
        rw [Except.ok.injEq, Prod.mk.injEq] at h
        obtain ⟨rfl, rfl⟩ := h
        have hnd1 : (Q1.map Prod.fst).Nodup := by
          rw [(fitPanel_keys (fitEntity t) P Q1 S hfa).1]; exact hnd
        simp only [List.zip_cons_cons, List.reverse_cons]
        rw [pipelineInvAux_append]
        rw [ih Q1 R Ss2 hnd1 hrest]
        simp only [pipelineInvAux]
        rw [fit_invert_entitywise t P Q1 S hnd hfa]

/-! ### CUSUM run lemmas -/

theorem cusumRun_length (p : CusumParams) :
    ∀ (xs : List ℝ) (st : CusumState), (cusumRun p st xs).length = xs.length := by
  intro xs
  induction xs with
  | nil => intro st; rfl
  | cons x xs ih => intro st; simp [cusumRun, ih]

theorem cusumStep_warm_flag (p : CusumParams) (st : CusumState) (x : ℝ)
    (h : st.warm = true) : (cusumStep p st x).2 = 0 := by
  unfold cusumStep
  rw [if_pos h]
  dsimp only
  split_ifs <;> rfl

theorem cusumStep_flag_cases (p : CusumParams) (st : CusumState) (x : ℝ) :
    (cusumStep p st x).2 = 0 ∨ (cusumStep p st x).2 = 1 := by
  by_cases hw : st.warm = true
  · exact Or.inl (cusumStep_warm_flag p st x hw)
  · unfold cusumStep
    rw [if_neg hw]
    dsimp only
    split_ifs <;> simp

theorem cusumRun_mem (p : CusumParams) :
    ∀ (xs : List ℝ) (st : CusumState) (f : ℕ),
      f ∈ cusumRun p st xs → f = 0 ∨ f = 1 := by
  intro xs
  induction xs with
  | nil => intro st f hf; simp [cusumRun] at hf
  | cons x xs ih =>
    intro st f hf
    simp only [cusumRun, List.mem_cons] at hf
    cases hf with
    | inl h => rw [h]; exact cusumStep_flag_cases p st x
    | inr h => exact ih _ f h

theorem cusumStep_warm_persist (p : CusumParams) (st : CusumState) (x : ℝ)
    (h : st.warm = true) (hb : st.buffer.length + 1 < p.warmup_period) :
    (cusumStep p st x).1.warm = true ∧
      (cusumStep p st x).1.buffer.length = st.buffer.length + 1 := by
  unfold cusumStep
  rw [if_pos h, if_pos (by simpa using hb)]
  exact ⟨h, by simp⟩

theorem cusumStep_event_reset (p : CusumParams) (st : CusumState) (x : ℝ)
    (h : (cusumStep p st x).2 = 1) :
    (cusumStep p st x).1.warm = true ∧ (cusumStep p st x).1.buffer = [] := by
  by_cases hw : st.warm = true
  · rw [cusumStep_warm_flag p st x hw] at h
    exact absurd h (by simp)
  · unfold cusumStep at h ⊢
    rw [if_neg hw] at h ⊢
    dsimp only at h ⊢
    split_ifs at h ⊢ with hev
    exact ⟨rfl, rfl⟩

theorem cusumStateAt_zero (p : CusumParams) (xs : List ℝ) :
    cusumStateAt p xs 0 = cusumInit := rfl

theorem cusumStateAt_succ (p : CusumParams) (xs : List ℝ) (i : ℕ)
    (hi : i < xs.length) :
    cusumStateAt p xs (i + 1)
      = (cusumStep p (cusumStateAt p xs i) (xs.getD i 0)).1 := by
  unfold cusumStateAt
  rw [List.take_succ, List.getElem?_eq_getElem hi]
  rw [List.foldl_append, List.getD_eq_getElem xs 0 hi]
  rfl

theorem cusumRun_getD (p : CusumParams) :
    ∀ (xs : List ℝ) (st : CusumState) (i : ℕ), i < xs.length →
      (cusumRun p st xs).getD i 0
        = (cusumStep p ((xs.take i).foldl (fun s x => (cusumStep p s x).1) st)
            (xs.getD i 0)).2 := by
  intro xs
  induction xs with
  | nil => intro st i hi; simp at hi
  | cons x xs ih =>
    intro st i hi
    cases i with
    | zero => rfl
    | succ j =>
      simp only [List.length_cons, Nat.succ_lt_succ_iff] at hi
      simp only [cusumRun, List.getD_cons_succ, List.take_succ_cons,
        List.foldl_cons]
      exact ih (cusumStep p st x).1 j hi

theorem cusum_flag_getD (p : CusumParams) (xs : List ℝ) (i : ℕ)
    (hi : i < xs.length) :
    (cusumRun p cusumInit xs).getD i 0
      = (cusumStep p (cusumStateAt p xs i) (xs.getD i 0)).2 :=
  cusumRun_getD p xs cusumInit i hi

theorem cusum_warm_streak (p : CusumParams) (xs : List ℝ) (i b : ℕ)
    (hw : (cusumStateAt p xs i).warm = true)
    (hb : (cusumStateAt p xs i).buffer.length = b) :
    ∀ r, r < p.warmup_period - b → i + r < xs.length →
      (cusumStateAt p xs (i + r)).warm = true ∧
        (cusumStateAt p xs (i + r)).buffer.length = b + r := by
  intro r
  induction r with
  | zero => intro _ _; exact ⟨hw, hb⟩
  | succ r ih =>
    intro hr hlen
    have hr0 : r < p.warmup_period - b := Nat.lt_of_succ_lt hr
    have hlen0 : i + r < xs.length := by omega
    obtain ⟨hw0, hb0⟩ := ih hr0 hlen0
    have hstep := cusumStep_warm_persist p (cusumStateAt p xs (i + r))
      (xs.getD (i + r) 0) hw0 (by omega)
    have hsucc := cusumStateAt_succ p xs (i + r) hlen0
    constructor
    · rw [show i + (r + 1) = i + r + 1 by omega, hsucc]
      exact hstep.1
    · rw [show i + (r + 1) = i + r + 1 by omega, hsucc, hstep.2, hb0]
      omega

theorem cusum_warm_zero (p : CusumParams) (xs : List ℝ) (i : ℕ)
    (hi : i < xs.length) (hw : (cusumStateAt p xs i).warm = true) :
    (cusumRun p cusumInit xs).getD i 0 = 0 := by
  rw [cusum_flag_getD p xs i hi]
  exact cusumStep_warm_flag p _ _ hw

/-! ### Whole batch error propagation -/

theorem scale_fitApply_error (um : Bool) :
    ∀ P : Panel, (∃ p ∈ P, std p.2 = 0) →
      fit_apply (.scale um true) P = .error .degenerateVariance := by
  intro P
  induction P with
  | nil => intro h; simp at h
  | cons p rest ih =>
    intro h
    obtain ⟨e, zs⟩ := p
    simp only [fit_apply, fitPanel]
    by_cases hz : std zs = 0
    · rw [show fitEntity (.scale um true) zs = .error .degenerateVariance by
        simp [fitEntity, hz]]
    · have htail : ∃ q ∈ rest, std q.2 = 0 := by
        rcases h with ⟨q, hq, hq0⟩
        rcases List.mem_cons.mp hq with heq | hmem
        · rw [heq] at hq0; exact absurd hq0 hz
        · exact ⟨q, hmem, hq0⟩
      have hok : fitEntity (.scale um true) zs
          = .ok (zs.map fun x => (x - scaleMean um zs) / scaleStd true zs,
                 .scaleS (scaleMean um zs) (scaleStd true zs)) := by
        simp [fitEntity, hz]
      rw [hok]
      have := ih htail
      simp only [fit_apply] at this
      rw [this]

theorem boxcox_fitApply_error (f : List ℝ → ℝ) :
    ∀ P : Panel, (∃ p ∈ P, ∃ v ∈ p.2, v ≤ 0) →
      fit_apply (.boxcox f) P = .error .nonPositiveValue := by
  intro P
  induction P with
  | nil => intro h; simp at h
  | cons p rest ih =>
    intro h
    obtain ⟨e, zs⟩ := p
    simp only [fit_apply, fitPanel]
    by_cases hz : ∃ v ∈ zs, v ≤ 0
    · rw [show fitEntity (.boxcox f) zs = .error .nonPositiveValue by
        simp only [fitEntity, if_pos hz]]
    · have htail : ∃ q ∈ rest, ∃ v ∈ q.2, v ≤ 0 := by
        rcases h with ⟨q, hq, hq0⟩
        rcases List.mem_cons.mp hq with heq | hmem
        · rw [heq] at hq0; exact absurd hq0 hz
        · exact ⟨q, hmem, hq0⟩
      have hok : fitEntity (.boxcox f) zs
          = .ok (zs.map (bcFwd (f zs)), .lamS (f zs)) := by
        simp only [fitEntity, if_neg hz]
      rw [hok]
      have := ih htail
      simp only [fit_apply] at this
      rw [this]

/-! ### Fourier fit success and the seasonal artifact -/

theorem fourier_fit_ok (sp K : ℕ) :
    ∀ P : Panel, (∀ p ∈ P, 2 * K + 1 < p.2.length) →
      fit_apply (.deseasonalize_fourier sp K) P
        = .ok (P.map fun p => (p.1, List.zipWith (· - ·) p.2 (seasonalOf sp K p.2)),
               P.map fun p => (p.1, .fourierS (fourierFit sp K p.2) (seasonalOf sp K p.2))) := by
  intro P
  induction P with
  | nil => intro _; rfl
  | cons p rest ih =>
    intro h
    obtain ⟨e, zs⟩ := p
    have hz : ¬zs.length ≤ 2 * K + 1 :=
      not_le.mpr (h (e, zs) (List.mem_cons_self _ _))
    have htail := fun q hq => h q (List.mem_cons_of_mem _ hq)
    simp only [fit_apply, fitPanel, fitEntity, if_neg hz]
    have := ih htail
    simp only [fit_apply] at this
    rw [this]
    simp

/-! ### Round trip error of the fractional difference -/

theorem listAbsErr_self (xs : List ℝ) :
    ((xs.zip xs).map fun vv => |vv.1 - vv.2|).sum = 0 := by
  induction xs with
  | nil => rfl
  | cons x xs ih => simp [ih]

theorem panelError_self (P : Panel) : panelError P P = 0 := by
  induction P with
  | nil => rfl
  | cons p rest ih =>
    simp only [panelError, List.zip_cons_cons, List.map_cons, List.sum_cons,
      listAbsErr_self]
    simp only [panelError] at ih
    rw [ih]
    ring

theorem fracRoundError_zero (d mw : ℝ) (P : Panel)
    (hnd : (P.map Prod.fst).Nodup) : fracRoundError d mw P = 0 := by
  unfold fracRoundError
  cases hfa : fit_apply (.fractional_diff d mw) P with
  | error e => rfl
  | ok r =>
    obtain ⟨Q, S⟩ := r
    dsimp only
    rw [fit_invert_entitywise _ P Q S hnd hfa]
    exact panelError_self P

/-! ### The frozen claims -/

/-- Claim C1: for each of the transforms Difference, Detrend,
DeseasonalizeFourier, Scale, BoxCox and YeoJohnson, and for every input panel
satisfying that transform preconditions (a panel that fit_apply accepts, with
the panel invariant of distinct entity keys), applying invert to the result
of fit_apply reproduces the original panel; over the real valued model the
floating point tolerance becomes exact equality. -/
theorem C1_six_transform_invertibility (t : Transform) (P Q : Panel)
    (S : StateMap) (hsix : classicSix t) (hnd : (P.map Prod.fst).Nodup)
    (hfit : fit_apply t P = .ok (Q, S)) : invert t S Q = .ok P :=
  fit_invert_entitywise t P Q S hnd hfit

/-- Claim C2: for every valid panel and every pipeline given as an ordered
list of transforms, fit_apply threads the panel through the transforms in
declared order and invert applies the stored inverts in reverse declared
order, so the pipeline round trip reproduces the panel; invert without a fit
fails with PipelineNotFittedError. -/
theorem C2_pipeline_reverse_invert (ts : List Transform) (P Q : Panel)
    (Ss : List StateMap) (hnd : (P.map Prod.fst).Nodup)
    (hfit : pipeline_fit_apply ts P = .ok (Q, Ss)) :
    pipeline_invert ts (some Ss) Q = .ok P ∧
      ∀ R : Panel, pipeline_invert ts none R = .error .pipelineNotFitted :=
  ⟨pipeline_round ts P Q Ss hnd hfit, fun _ => rfl⟩

/-- Claim C5: for Difference with seasonal period at least one, on an entity
sequence with at least order times period plus one observations, the forward
output at position i is x i minus x at i minus the lag, the state stores the
lag raw values preceding the output window, and order zero is a no op. -/
theorem C5_difference_forward (order sp : ℕ) (xs : List ℝ)
    (hsp : 1 ≤ sp) (h0 : order ≠ 0)
    (hlen : order * sp + 1 ≤ xs.length) :
    fitEntity (.diff order sp) xs
        = .ok (diffFwd (order * sp) xs, .diffS (xs.take (order * sp))) ∧
      (diffFwd (order * sp) xs).length = xs.length - order * sp ∧
      (∀ i, order * sp ≤ i → i < xs.length →
        (diffFwd (order * sp) xs).getD (i - order * sp) 0
          = xs.getD i 0 - xs.getD (i - order * sp) 0) ∧
      (∀ ys : List ℝ, fitEntity (.diff 0 sp) ys = .ok (ys, .diffS [])) := by
  have hsp0 : sp ≠ 0 := by omega
  refine ⟨?_, ?_, ?_, ?_⟩
  · simp only [fitEntity, if_neg hsp0, if_neg h0, if_neg (by omega : ¬xs.length < order * sp + 1)]
  · simp only [diffFwd, List.length_zipWith, List.length_drop]
    omega
  · intro i hle hlt
    have hj : i - order * sp < (diffFwd (order * sp) xs).length := by
      simp only [diffFwd, List.length_zipWith, List.length_drop]
      omega
    have hj2 : i - order * sp < xs.length := by omega
    rw [List.getD_eq_getElem _ 0 hj, List.getD_eq_getElem _ 0 hlt,
      List.getD_eq_getElem _ 0 hj2]
    simp only [diffFwd, List.getElem_zipWith, List.getElem_drop]
    have hidx : order * sp + (i - order * sp) = i := Nat.add_sub_cancel' hle
    simp only [hidx]
  · intro ys
    simp [fitEntity, hsp0]

/-- Claim C6: the fractional difference filter weights satisfy the binomial
recurrence and are truncated at the first index whose weight falls below
min_weight in absolute value, and the round trip error of invert after
fit_apply is monotone in min_weight (in this model the spec invert solves the
truncated recurrence from the stored history exactly, so the error is zero on
both sides). -/
theorem C6_fractional_diff_weights_error (d mw mw2 : ℝ) (k : ℕ) (P : Panel)
    (hk : 1 ≤ k) (hex : ∃ j, |fracWeight d j| < mw)
    (hmw : mw ≤ mw2) (hnd : (P.map Prod.fst).Nodup) :
    fracWeight d k = fracWeight d (k - 1) * (d - k + 1) / k
    ∧ (|fracWeight d (truncLen d mw)| < mw
        ∧ ∀ j < truncLen d mw, mw ≤ |fracWeight d j|)
    ∧ fracRoundError d mw P ≤ fracRoundError d mw2 P := by
  refine ⟨?_, ?_, ?_⟩
  · cases k with
    | zero => omega
    | succ j =>
      simp only [fracWeight, Nat.add_sub_cancel]
      push_cast
      ring
  · rw [truncLen, dif_pos hex]
    exact ⟨Nat.find_spec hex, fun j hj => not_lt.mp (Nat.find_min hex hj)⟩
  · rw [fracRoundError_zero d mw P hnd, fracRoundError_zero d mw2 P hnd]

/-- Claim C7: with use_std set, fit_apply on a panel containing an entity of
exactly zero standard deviation fails with DegenerateVarianceError (the
documented policy; no panel is produced, so no NaN or Inf can appear), and on
an entity of nonzero standard deviation the forward output is the value minus
the conditional mean divided by the conditional std. -/
theorem C7_scale_degenerate_variance (um us : Bool) (P : Panel) (xs : List ℝ)
    (hdeg : ∃ p ∈ P, std p.2 = 0) (hxs : us = true → std xs ≠ 0) :
    fit_apply (.scale um true) P = .error .degenerateVariance ∧
      fitEntity (.scale um us) xs
        = .ok (xs.map fun x =>
            (x - (if um then mean xs else 0)) / (if us then std xs else 1),
          .scaleS (if um then mean xs else 0) (if us then std xs else 1)) := by
  constructor
  · exact scale_fitApply_error um P hdeg
  · have hguard : ¬(us = true ∧ std xs = 0) := by
      rintro ⟨hu, hz⟩
      exact hxs hu hz
    simp only [fitEntity, if_neg hguard, scaleMean, scaleStd]

/-- Claim C8: fit_apply of BoxCox on a panel in which some entity sequence
contains a value at most zero fails synchronously with NonPositiveValueError,
and no partial transform is returned: no transformed panel and no state. -/
theorem C8_boxcox_nonpositive (f : List ℝ → ℝ) (P : Panel)
    (hneg : ∃ p ∈ P, ∃ v ∈ p.2, v ≤ 0) :
    fit_apply (.boxcox f) P = .error .nonPositiveValue ∧
      ∀ (Q : Panel) (S : StateMap), fit_apply (.boxcox f) P ≠ .ok (Q, S) := by
  have h := boxcox_fitApply_error f P hneg
  exact ⟨h, fun Q S hok => by rw [h] at hok; exact Except.noConfusion hok⟩

/-- Claim C9: per entity results depend only on that entity data: a fitted
two entity panel decomposes so that each entity alone produces exactly the
same transformed output and fitted state as in the two entity panel. -/
theorem C9_entity_independence (t : Transform) (a b : String)
    (xs ys : List ℝ) (Q : Panel) (S : StateMap)
    (hfit : fit_apply t [(a, xs), (b, ys)] = .ok (Q, S)) :
    ∃ qa sa qb sb, Q = [(a, qa), (b, qb)] ∧ S = [(a, sa), (b, sb)] ∧
      fit_apply t [(a, xs)] = .ok ([(a, qa)], [(a, sa)]) ∧
      fit_apply t [(b, ys)] = .ok ([(b, qb)], [(b, sb)]) := by
  simp only [fit_apply, fitPanel] at hfit
  cases hx : fitEntity t xs with
  | error e => rw [hx] at hfit; simp at hfit
  | ok rx =>
    obtain ⟨qa, sa⟩ := rx
    rw [hx] at hfit
    dsimp only at hfit
    cases hy : fitEntity t ys with
    | error e => rw [hy] at hfit; simp at hfit
    | ok ry =>
      obtain ⟨qb, sb⟩ := ry
      rw [hy] at hfit
      dsimp only at hfit
      rw [Except.ok.injEq, Prod.mk.injEq] at hfit
      obtain ⟨rfl, rfl⟩ := hfit
      exact ⟨qa, sa, qb, sb, rfl, rfl,
        by simp [fit_apply, fitPanel, hx],
        by simp [fit_apply, fitPanel, hy]⟩

/-- Claim C10: after a Fourier deseasonalization fit on a valid panel, the
state exposes the artifacts mapping holding, under the key X_seasonal, the
fitted per entity seasonal component series, the same component that invert
adds back, retrievable from the state without re fitting. -/
theorem C10_fourier_seasonal_artifact (sp K : ℕ) (P : Panel)
    (hnd : (P.map Prod.fst).Nodup)
    (hlen : ∀ p ∈ P, 2 * K + 1 < p.2.length) :
    ∃ (Q : Panel) (S : StateMap),
      fit_apply (.deseasonalize_fourier sp K) P = .ok (Q, S) ∧
      (artifactsOf (.deseasonalize_fourier sp K) S).lookup "X_seasonal"
        = some (P.map fun p => (p.1, seasonalOf sp K p.2)) ∧
      invert (.deseasonalize_fourier sp K) S Q = .ok P := by
  have hfit := fourier_fit_ok sp K P hlen
  refine ⟨_, _, hfit, ?_, fit_invert_entitywise _ P _ _ hnd hfit⟩
  simp only [artifactsOf, List.lookup, beq_self_eq_true, Option.some.injEq]
  rw [List.filterMap_map]
  have hfun : ((fun es : String × EntityState =>
      match es.2 with
      | .fourierS _ sea => some (es.1, sea)
      | _ => none) ∘
      fun p : String × List ℝ =>
        (p.1, EntityState.fourierS (fourierFit sp K p.2) (seasonalOf sp K p.2)))
      = some ∘ fun p : String × List ℝ => (p.1, seasonalOf sp K p.2) := by
    funext p
    rfl
  rw [hfun, List.filterMap_eq_map]

theorem cusumStep_monitoring (p : CusumParams) (st : CusumState) (x : ℝ)
    (hm : st.warm = false) :
    cusumStep p st x
      = if p.threshold < max 0 (st.sPos + (x - st.mu) / st.sigma - p.drift)
           ∨ min 0 (st.sNeg + (x - st.mu) / st.sigma + p.drift) < -p.threshold
        then ({ buffer := [], mu := st.mu, sigma := st.sigma,
                sPos := 0, sNeg := 0, warm := true }, 1)
        else ({ buffer := st.buffer, mu := st.mu, sigma := st.sigma,
                sPos := max 0 (st.sPos + (x - st.mu) / st.sigma - p.drift),
                sNeg := min 0 (st.sNeg + (x - st.mu) / st.sigma + p.drift),
                warm := false }, 0) := by
  unfold cusumStep
  rw [if_neg (by simp [hm])]
  dsimp only
  split_ifs with hev
  · rfl
  · rw [hm]

/-- Claim C3: at every step where the detector is Monitoring, the emitted
flag is one exactly when the updated accumulators cross the threshold, in
which case both accumulators reset to zero, the warmup buffer is cleared and
the detector returns to Warmup; otherwise the flag is zero and the updated
accumulators are the standardized cumulative sums. -/
theorem C3_cusum_monitoring_step (threshold : ℝ) (warmup_period : ℕ)
    (drift eps : ℝ) (xs : List ℝ) (i : ℕ) (hi : i < xs.length)
    (hm : (cusumStateAt ⟨threshold, warmup_period, drift, eps⟩ xs i).warm
      = false) :
    (cusum threshold warmup_period drift eps xs).getD i 0
      = (if threshold
            < max 0 ((cusumStateAt ⟨threshold, warmup_period, drift, eps⟩ xs i).sPos
              + (xs.getD i 0 - (cusumStateAt ⟨threshold, warmup_period, drift, eps⟩ xs i).mu)
                / (cusumStateAt ⟨threshold, warmup_period, drift, eps⟩ xs i).sigma - drift)
          ∨ min 0 ((cusumStateAt ⟨threshold, warmup_period, drift, eps⟩ xs i).sNeg
              + (xs.getD i 0 - (cusumStateAt ⟨threshold, warmup_period, drift, eps⟩ xs i).mu)
                / (cusumStateAt ⟨threshold, warmup_period, drift, eps⟩ xs i).sigma + drift)
            < -threshold
         then 1 else 0)
    ∧ cusumStateAt ⟨threshold, warmup_period, drift, eps⟩ xs (i + 1)
      = (if threshold
            < max 0 ((cusumStateAt ⟨threshold, warmup_period, drift, eps⟩ xs i).sPos
              + (xs.getD i 0 - (cusumStateAt ⟨threshold, warmup_period, drift, eps⟩ xs i).mu)
                / (cusumStateAt ⟨threshold, warmup_period, drift, eps⟩ xs i).sigma - drift)
          ∨ min 0 ((cusumStateAt ⟨threshold, warmup_period, drift, eps⟩ xs i).sNeg
              + (xs.getD i 0 - (cusumStateAt ⟨threshold, warmup_period, drift, eps⟩ xs i).mu)
                / (cusumStateAt ⟨threshold, warmup_period, drift, eps⟩ xs i).sigma + drift)
            < -threshold
         then { buffer := [],
                mu := (cusumStateAt ⟨threshold, warmup_period, drift, eps⟩ xs i).mu,
                sigma := (cusumStateAt ⟨threshold, warmup_period, drift, eps⟩ xs i).sigma,
                sPos := 0, sNeg := 0, warm := true }
         else { buffer := (cusumStateAt ⟨threshold, warmup_period, drift, eps⟩ xs i).buffer,
                mu := (cusumStateAt ⟨threshold, warmup_period, drift, eps⟩ xs i).mu,
                sigma := (cusumStateAt ⟨threshold, warmup_period, drift, eps⟩ xs i).sigma,
                sPos := max 0 ((cusumStateAt ⟨threshold, warmup_period, drift, eps⟩ xs i).sPos
                  + (xs.getD i 0 - (cusumStateAt ⟨threshold, warmup_period, drift, eps⟩ xs i).mu)
                    / (cusumStateAt ⟨threshold, warmup_period, drift, eps⟩ xs i).sigma - drift),
                sNeg := min 0 ((cusumStateAt ⟨threshold, warmup_period, drift, eps⟩ xs i).sNeg
                  + (xs.getD i 0 - (cusumStateAt ⟨threshold, warmup_period, drift, eps⟩ xs i).mu)
                    / (cusumStateAt ⟨threshold, warmup_period, drift, eps⟩ xs i).sigma + drift),
                warm := false }) := by
  constructor
  · show (cusumRun ⟨threshold, warmup_period, drift, eps⟩ cusumInit xs).getD i 0 = _
    rw [cusum_flag_getD ⟨threshold, warmup_period, drift, eps⟩ xs i hi]
    rw [cusumStep_monitoring _ _ _ hm]
    split_ifs <;> rfl
  · rw [cusumStateAt_succ _ xs i hi, cusumStep_monitoring _ _ _ hm]
    split_ifs <;> rfl

/-- Claim C4: the flag sequence is aligned one to one with the input, every
flag is zero or one, and every index inside an active warmup window, that is
the first warmup_period indices of the run and the warmup_period indices
following any emitted event, carries flag zero. -/
theorem C4_cusum_warmup_invariant (threshold : ℝ) (warmup_period : ℕ)
    (drift eps : ℝ) (xs : List ℝ) (hthr : 0 < threshold)
    (hW : 2 ≤ warmup_period) (hdrift : 0 ≤ drift) :
    (cusum threshold warmup_period drift eps xs).length = xs.length
    ∧ (∀ f ∈ cusum threshold warmup_period drift eps xs, f = 0 ∨ f = 1)
    ∧ (∀ i, i < warmup_period → i < xs.length →
        (cusum threshold warmup_period drift eps xs).getD i 0 = 0)
    ∧ (∀ j i, j < xs.length → i < xs.length →
        (cusum threshold warmup_period drift eps xs).getD j 0 = 1 →
        j < i → i ≤ j + warmup_period →
        (cusum threshold warmup_period drift eps xs).getD i 0 = 0) := by
  set p : CusumParams := ⟨threshold, warmup_period, drift, eps⟩ with hp
  refine ⟨cusumRun_length p xs cusumInit, fun f hf => cusumRun_mem p xs cusumInit f hf, ?_, ?_⟩
  · intro i hiW hilen
    have hstreak := cusum_warm_streak p xs 0 0 rfl rfl i
      (by simpa using hiW) (by simpa using hilen)
    exact cusum_warm_zero p xs i hilen (by simpa using hstreak.1)
  · intro j i hj hi hflag hlt hle
    have hstep : (cusumStep p (cusumStateAt p xs j) (xs.getD j 0)).2 = 1 := by
      rw [← cusum_flag_getD p xs j hj]
      exact hflag
    have hreset := cusumStep_event_reset p _ _ hstep
    have hwm : (cusumStateAt p xs (j + 1)).warm = true := by
      rw [cusumStateAt_succ p xs j hj]
      exact hreset.1
    have hbuf : (cusumStateAt p xs (j + 1)).buffer.length = 0 := by
      rw [cusumStateAt_succ p xs j hj, hreset.2]
      rfl
    have hstreak := cusum_warm_streak p xs (j + 1) 0 hwm hbuf (i - j - 1)
      (by simp only [hp]; omega) (by omega)
    have : j + 1 + (i - j - 1) = i := by omega
    rw [this] at hstreak
    exact cusum_warm_zero p xs i hi hstreak.1

/-! ### Witnesses -/

theorem C1_six_transform_invertibility_witness :
    fit_apply (.diff 1 1) [("a", [1, 3, 6])]
        = .ok ([("a", [2, 3])], [("a", .diffS [1])])
    ∧ invert (.diff 1 1) [("a", .diffS [1])] [("a", [2, 3])]
        = .ok [("a", [1, 3, 6])] := by
  have hfit : fit_apply (.diff 1 1) [("a", [1, 3, 6])]
      = .ok ([("a", [2, 3])], [("a", .diffS [1])]) := by
    norm_num [fit_apply, fitPanel, fitEntity, diffFwd]
  exact ⟨hfit, C1_six_transform_invertibility (.diff 1 1) [("a", [1, 3, 6])]
    [("a", [2, 3])] [("a", .diffS [1])] trivial (by simp) hfit⟩

theorem C2_pipeline_reverse_invert_witness :
    pipeline_fit_apply [.diff 1 1, .scale true false] [("a", [1, 3, 6])]
        = .ok ([("a", [-1/2, 1/2])],
               [[("a", .diffS [1])], [("a", .scaleS (5/2) 1)]])
    ∧ pipeline_invert [.diff 1 1, .scale true false]
        (some [[("a", .diffS [1])], [("a", .scaleS (5/2) 1)]])
        [("a", [-1/2, 1/2])] = .ok [("a", [1, 3, 6])] := by
  have hfit : pipeline_fit_apply [.diff 1 1, .scale true false] [("a", [1, 3, 6])]
      = .ok ([("a", [-1/2, 1/2])],
             [[("a", .diffS [1])], [("a", .scaleS (5/2) 1)]]) := by
    norm_num [pipeline_fit_apply, fit_apply, fitPanel, fitEntity, diffFwd,
      scaleMean, scaleStd, mean]
  exact ⟨hfit, (C2_pipeline_reverse_invert [.diff 1 1, .scale true false]
    [("a", [1, 3, 6])] [("a", [-1/2, 1/2])]
    [[("a", .diffS [1])], [("a", .scaleS (5/2) 1)]] (by simp) hfit).1⟩

theorem C3_cusum_monitoring_step_witness :
    (cusum 5 2 1 1 [0, 2, 10]).getD 2 0 = 1 := by
  have hstd : std [(0 : ℝ), 2] = 1 := by
    norm_num [std, variance, mean]
  have hstate : cusumStateAt ⟨5, 2, 1, 1⟩ [0, 2, 10] 2
      = { buffer := [0, 2], mu := 1, sigma := 1,
          sPos := 0, sNeg := 0, warm := false } := by
    unfold cusumStateAt
    norm_num [List.take, List.foldl, cusumStep, cusumInit, mean, hstd]
  have h := (C3_cusum_monitoring_step 5 2 1 1 [0, 2, 10] 2 (by norm_num)
    (by rw [hstate])).1
  rw [hstate] at h
  norm_num at h
  exact h

theorem C4_cusum_warmup_invariant_witness :
    (cusum 5 2 1 1 [1, 2, 3]).length = 3 :=
  (C4_cusum_warmup_invariant 5 2 1 1 [1, 2, 3] (by norm_num) (by norm_num)
    (by norm_num)).1

theorem C5_difference_forward_witness :
    fitEntity (.diff 1 1) [(1 : ℝ), 3, 6]
      = .ok (diffFwd 1 [(1 : ℝ), 3, 6], .diffS [1]) :=
  (C5_difference_forward 1 1 [1, 3, 6] (by norm_num) (by norm_num)
    (by norm_num)).1

theorem C6_fractional_diff_weights_error_witness :
    (∃ j, |fracWeight (1/2) j| < 3/10)
    ∧ fracRoundError (1/2) (3/10) [("a", [1, 2, 4])]
        ≤ fracRoundError (1/2) (3/10) [("a", [1, 2, 4])] := by
  have hex : ∃ j, |fracWeight (1/2) j| < (3/10 : ℝ) :=
    ⟨2, by norm_num [fracWeight, abs_lt]⟩
  exact ⟨hex, (C6_fractional_diff_weights_error (1/2) (3/10) (3/10) 1
    [("a", [1, 2, 4])] (le_refl 1) hex (le_refl _) (by simp)).2.2⟩

theorem C7_scale_degenerate_variance_witness :
    fit_apply (.scale true true) [("a", [2, 2])] = .error .degenerateVariance
    ∧ fitEntity (.scale true true) [(1 : ℝ), 2]
        = .ok ([(1 : ℝ), 2].map fun x => (x - mean [1, 2]) / std [1, 2],
               .scaleS (mean [1, 2]) (std [1, 2])) := by
  have hdeg : ∃ p ∈ ([("a", [2, 2])] : Panel), std p.2 = 0 :=
    ⟨("a", [2, 2]), List.mem_singleton_self _,
      by norm_num [std, variance, mean]⟩
  have hxs : true = true → std [(1 : ℝ), 2] ≠ 0 := by
    intro _
    have hvar : variance [(1 : ℝ), 2] = 1/4 := by
      norm_num [variance, mean]
    rw [std, hvar]
    rw [Real.sqrt_ne_zero (by norm_num)]
    norm_num
  exact C7_scale_degenerate_variance true true [("a", [2, 2])] [1, 2] hdeg hxs

theorem C8_boxcox_nonpositive_witness :
    fit_apply (.boxcox fun _ => 1) [("a", [-1])] = .error .nonPositiveValue :=
  (C8_boxcox_nonpositive (fun _ => 1) [("a", [-1])]
    ⟨("a", [-1]), List.mem_singleton_self _, -1, List.mem_singleton_self _,
      by norm_num⟩).1

theorem C9_entity_independence_witness :
    fit_apply (.scale true false) [("a", [1, 3]), ("b", [2, 6])]
        = .ok ([("a", [-1, 1]), ("b", [-2, 2])],
               [("a", .scaleS 2 1), ("b", .scaleS 4 1)])
    ∧ ∃ qa sa qb sb,
        ([("a", [-1, 1]), ("b", [-2, 2])] : Panel) = [("a", qa), ("b", qb)]
        ∧ ([("a", .scaleS 2 1), ("b", .scaleS 4 1)] : StateMap)
            = [("a", sa), ("b", sb)]
        ∧ fit_apply (.scale true false) [("a", [1, 3])]
            = .ok ([("a", qa)], [("a", sa)])
        ∧ fit_apply (.scale true false) [("b", [2, 6])]
            = .ok ([("b", qb)], [("b", sb)]) := by
  have hfit : fit_apply (.scale true false) [("a", [1, 3]), ("b", [2, 6])]
      = .ok ([("a", [-1, 1]), ("b", [-2, 2])],
             [("a", .scaleS 2 1), ("b", .scaleS 4 1)]) := by
    norm_num [fit_apply, fitPanel, fitEntity, scaleMean, scaleStd, mean]
  exact ⟨hfit, C9_entity_independence (.scale true false) "a" "b" [1, 3] [2, 6]
    [("a", [-1, 1]), ("b", [-2, 2])] [("a", .scaleS 2 1), ("b", .scaleS 4 1)]
    hfit⟩

theorem C10_fourier_seasonal_artifact_witness :
    ∃ (Q : Panel) (S : StateMap),
      fit_apply (.deseasonalize_fourier 4 1) [("a", [1, 2, 3, 4, 5, 6, 7, 8, 9])]
        = .ok (Q, S)
      ∧ (artifactsOf (.deseasonalize_fourier 4 1) S).lookup "X_seasonal"
          = some ([("a", [1, 2, 3, 4, 5, 6, 7, 8, 9])].map fun p =>
              (p.1, seasonalOf 4 1 p.2))
      ∧ invert (.deseasonalize_fourier 4 1) S Q
          = .ok [("a", [1, 2, 3, 4, 5, 6, 7, 8, 9])] :=
  C10_fourier_seasonal_artifact 4 1 [("a", [1, 2, 3, 4, 5, 6, 7, 8, 9])]
    (by simp)
    (by
      intro p hp
      rw [List.mem_singleton] at hp
      subst hp
      norm_num)

end Functime
